import Mathlib

/-!
# muShell: utilities and the read-evaluate loop

A shallow embedding of `src/src/utils.c` and `src/src/main.c` of muShell.

* C strings are lists of characters (the bytes before the terminating NUL);
  a pointer that may be `NULL` is an `Option`.
* Heap allocation (`malloc`, `strdup`) is taken to succeed.
* The C library function `strtok` is modelled by its standard behaviour, with
  the hidden save pointer made explicit.
* The lexer, parser, executor and history modules are not part of the
  embedded sources: the loop is parametrised by them (`Collab`).
-/

namespace MuShell

/-- A C string: the characters before the terminating NUL. -/
abbrev CStr := List Char

/-! ## Constants of `shell.h` -/

/-- `#define MAX_TOKENS 64` -/
def MAX_TOKENS : Nat := 64

/-- `#define MAX_PATH_SIZE 256` -/
def MAX_PATH_SIZE : Nat := 256

/-! ## `strtok` -/

/-- Membership of a character in the delimiter string of `strtok`. -/
def isDelim (delim : CStr) (ch : Char) : Bool := delim.contains ch

/-- One call of the C library function `strtok`, with the save pointer explicit:
`save` is the text that is still unread. Leading delimiters are skipped; when
nothing is left the call returns `NULL`; otherwise the token runs up to the next
delimiter, which is overwritten by NUL, and the save pointer is put behind it. -/
def strtok (delim : CStr) (save : CStr) : Option CStr × CStr :=
  match save.dropWhile (isDelim delim) with
  | [] => (none, [])
  | c :: cs =>
    (some ((c :: cs).takeWhile (fun x => !isDelim delim x)),
     ((c :: cs).dropWhile (fun x => !isDelim delim x)).drop 1)

/-! ## `split_string` (utils.c, lines 7-40) -/

/-- The loop `while (token && count < MAX_TOKENS - 1)` of `split_string`:
`token` is the token in hand, `save` the state of `strtok`, `result` the array
filled so far. The first argument bounds the number of iterations of the
model; `split_string` supplies one more than the length of the input. -/
def split_string_loop (delim : CStr) :
    Nat → Option CStr → CStr → Nat → List CStr → List CStr
  | 0, _, _, _, result => result
  | fuel + 1, token, save, count, result =>
    match token with
    | none => result
    | some tok =>
      if count < MAX_TOKENS - 1 then
        split_string_loop delim fuel (strtok delim save).1 (strtok delim save).2
          (count + 1) (result ++ [tok])
      else result

/-- `char **split_string(const char *str, const char *delim)`: `none` is the
`NULL` result, `some l` the NULL-terminated array with the elements `l`. -/
def split_string (str delim : Option CStr) : Option (List CStr) :=
  match str, delim with
  | some s, some d =>
    some (split_string_loop d (s.length + 1) (strtok d s).1 (strtok d s).2 0 [])
  | _, _ => none

/-! ## `trim_whitespace` (utils.c, lines 58-77) -/

/-- The test `c == ' ' || c == '\t' || c == '\n' || c == '\r'`. -/
def is_space (c : Char) : Bool :=
  c == ' ' || c == '\t' || c == '\n' || c == '\r'

/-- The loop `while (*str && is_space(*str)) str++`. -/
def skip_leading : CStr → CStr
  | [] => []
  | c :: cs => if is_space c then skip_leading cs else c :: cs

/-- The loop `while (end > str && is_space(*end)) end--`, on the offset of
`end` from `str`. -/
def trim_trailing (str : CStr) : Nat → Nat
  | 0 => 0
  | e + 1 =>
    match str[e + 1]? with
    | some c => if is_space c then trim_trailing str e else e + 1
    | none => e + 1

/-- `char *trim_whitespace(char *str)`: the string the returned pointer
designates after the call. -/
def trim_whitespace (str : Option CStr) : Option CStr :=
  match str with
  | none => none
  | some s =>
    match skip_leading s with
    | [] => some []
    | c :: cs =>
      some ((c :: cs).take (trim_trailing (c :: cs) ((c :: cs).length - 1) + 1))

/-! ## The command list and `count_commands_in_pipeline` (utils.c, lines 82-89) -/

/-- `token_type_t` -/
inductive token_type_t
  | TOKEN_WORD
  | TOKEN_PIPE
  | TOKEN_REDIRECT_OUT
  | TOKEN_REDIRECT_APPEND
  | TOKEN_REDIRECT_IN
  | TOKEN_BACKGROUND
  | TOKEN_EOF
  | TOKEN_ERROR
  deriving DecidableEq, Repr

/-- `token_t` -/
structure token_t where
  type : token_type_t
  value : Option CStr
  deriving DecidableEq, Repr

/-- A pointer `command_t *` to a finite, acyclic list of stages: either `NULL`
or a `struct command` whose `next` field is again such a pointer. -/
inductive command_t
  | NULL
  | node (args : List CStr) (argc : Int) (input_file output_file : Option CStr)
      (append_output background : Int) (next : command_t)
  deriving DecidableEq, Repr

/-- The loop `while (cmd)` of `count_commands_in_pipeline`, which adds 1 to
`count` for each stage. The counter is a C `int`; signed overflow is undefined in
C and is not modelled. -/
def count_loop : command_t → Int → Int
  | .NULL, count => count
  | .node _ _ _ _ _ _ next, count => count_loop next (count + 1)

/-- `int count_commands_in_pipeline(command_t *cmd)` -/
def count_commands_in_pipeline (cmd : command_t) : Int :=
  count_loop cmd 0

/-- The stages of a pipeline, first to last, each given by its argument vector. -/
def command_t.stages : command_t → List (List CStr)
  | .NULL => []
  | .node args _ _ _ _ _ next => args :: next.stages

/-! ## `get_executable_path` (utils.c, lines 110-150) -/

/-- The loop `while (dir)` of `get_executable_path`. `access` answers
`access(path, X_OK) == 0`; `dir` is the directory in hand and `save` the state of
`strtok`. `snprintf` writes at most `MAX_PATH_SIZE - 1` characters of
`dir/command` into `full_path`. The first argument bounds the number of
iterations of the model. -/
def get_executable_path_loop (access : CStr → Bool) (command : CStr) :
    Nat → Option CStr → CStr → Option CStr
  | 0, _, _ => none
  | fuel + 1, dir, save =>
    match dir with
    | none => none
    | some d =>
      if access ((d ++ '/' :: command).take (MAX_PATH_SIZE - 1)) then
        some ((d ++ '/' :: command).take (MAX_PATH_SIZE - 1))
      else
        get_executable_path_loop access command fuel
          (strtok [':'] save).1 (strtok [':'] save).2

/-- `char *get_executable_path(const char *command)`; `path_env` is the value of
`getenv("PATH")`. -/
def get_executable_path (access : CStr → Bool) (path_env : Option CStr)
    (command : Option CStr) : Option CStr :=
  match command with
  | none => none
  | some cmd =>
    if cmd.contains '/' then
      if access cmd then some cmd else none
    else
      match path_env with
      | none => none
      | some path =>
        get_executable_path_loop access cmd (path.length + 1)
          (strtok [':'] path).1 (strtok [':'] path).2

/-! ## Shell state and the loop of `main.c` -/

/-- `shell_state_t` -/
structure shell_state_t where
  input_buffer : Option CStr
  history : List CStr
  history_count : Int
  history_index : Int
  current_directory : CStr
  last_exit_status : Int
  running : Int
  deriving DecidableEq, Repr

/-- The global `g_shell` together with the rest of the process state `os`
(environment variables, files, children) that the other modules act on. -/
structure World (E : Type) where
  g_shell : shell_state_t
  os : E
  deriving DecidableEq, Repr

/-- The functions that `main.c` calls and that live in other modules
(history.c, lexer.c, parser.c, executor.c, signals.c) or in the C library.
`tokenize` and `parse_command` return their result (`none`, `NULL` on failure)
and may read the state; the others may change it. -/
structure Collab (E : Type) where
  getcwd : E → Option CStr
  setup_signals : World E → World E
  init_history : World E → World E
  add_to_history : CStr → World E → World E
  tokenize : CStr → World E → Option (List token_t)
  parse_command : List token_t → World E → command_t
  execute_command : command_t → World E → Int × World E
  cleanup_history : World E → World E

/-- What one pass of the loop does that is visible outside `shell_loop`: calls
of the other modules, messages of `print_error`, and stores to
`g_shell.last_exit_status`. -/
inductive Event
  | add_to_history (line : CStr)
  | tokenize (line : CStr)
  | parse_command (tokens : List token_t)
  | execute_command (cmd : command_t) (status : Int)
  | store_last_exit_status (status : Int)
  | print_error (message : String)
  deriving DecidableEq, Repr

/-- The assignment `g_shell.last_exit_status = v`. -/
def World.set_last_exit_status {E : Type} (w : World E) (v : Int) : World E :=
  { w with g_shell := { w.g_shell with last_exit_status := v } }

/-- The body of the `while` loop of `shell_loop` (main.c, lines 65-97) for a
line that `read_line` returned: the state after the pass and its events.
Prompt output and the release of memory are left out. -/
def shell_loop_body {E : Type} (c : Collab E) (line : CStr) (w : World E) :
    World E × List Event :=
  if line.length = 0 then (w, [])
  else
    match c.tokenize line (c.add_to_history line w) with
    | none =>
      (c.add_to_history line w,
        [.add_to_history line, .tokenize line,
         .print_error "Failed to tokenize input"])
    | some tokens =>
      match c.parse_command tokens (c.add_to_history line w) with
      | .NULL =>
        (c.add_to_history line w,
          [.add_to_history line, .tokenize line, .parse_command tokens,
           .print_error "Failed to parse command"])
      | .node a n i o ap b nx =>
        (((c.execute_command (.node a n i o ap b nx) (c.add_to_history line w)).2).set_last_exit_status
            (c.execute_command (.node a n i o ap b nx) (c.add_to_history line w)).1,
          [.add_to_history line, .tokenize line, .parse_command tokens,
           .execute_command (.node a n i o ap b nx)
             (c.execute_command (.node a n i o ap b nx) (c.add_to_history line w)).1,
           .store_last_exit_status
             (c.execute_command (.node a n i o ap b nx) (c.add_to_history line w)).1])

/-- `void shell_loop(void)`: `input` holds the lines that successive calls of
`read_line` return; after the last one `read_line` returns `NULL` (end of
input). The loop also stops as soon as `g_shell.running` is 0. -/
def shell_loop {E : Type} (c : Collab E) : List CStr → World E → World E × List Event
  | [], w => (w, [])
  | line :: rest, w =>
    if w.g_shell.running = 0 then (w, [])
    else
      ((shell_loop c rest (shell_loop_body c line w).1).1,
       (shell_loop_body c line w).2 ++ (shell_loop c rest (shell_loop_body c line w).1).2)

/-- The state after `memset(&g_shell, 0, sizeof(shell_state_t))`. -/
def zeroed_state : shell_state_t :=
  { input_buffer := none, history := [], history_count := 0, history_index := 0,
    current_directory := [], last_exit_status := 0, running := 0 }

/-- `int main(int argc, char **argv)`: the exit code and the events of the loop.
`os` is the state of the process at start, `input` the lines read. -/
def main {E : Type} (c : Collab E) (os : E) (input : List CStr) : Int × List Event :=
  let g0 : shell_state_t := { zeroed_state with running := 1, last_exit_status := 0 }
  let g1 : shell_state_t :=
    match c.getcwd os with
    | some d => { g0 with current_directory := d }
    | none => { g0 with current_directory := ['/'] }
  let w1 := c.init_history (c.setup_signals { g_shell := g1, os := os })
  let r := shell_loop c input w1
  let w2 := c.cleanup_history r.1
  (w2.g_shell.last_exit_status, r.2)

/-! ## Reference notions for the statements -/

/-- The delimiter-separated pieces of `str`: the maximal non-empty substrings
that contain no character of `delim`, left to right. -/
def pieces (delim : CStr) (str : CStr) : List CStr :=
  (str.splitOnP (isDelim delim)).filter (fun p => !p.isEmpty)

/-- A decomposition of a string into delimiter runs and tokens:
`SplitsInto d s l` says that `s` reads as a run of delimiters, the first
element of `l`, a run of delimiters, the second element, and so on to a last run
of delimiters; every element of `l` is non-empty, free of delimiters, and
followed by a delimiter or by the end of `s`. -/
inductive SplitsInto (d : CStr) : CStr → List CStr → Prop
  | done (g : CStr) (hg : ∀ c ∈ g, c ∈ d) : SplitsInto d g []
  | token (g t rest : CStr) (ts : List CStr)
      (hg : ∀ c ∈ g, c ∈ d) (hne : t ≠ []) (ht : ∀ c ∈ t, c ∉ d)
      (hrest : ∀ c, rest.head? = some c → c ∈ d)
      (h : SplitsInto d rest ts) : SplitsInto d (g ++ t ++ rest) (t :: ts)

/-- The directories listed in a `PATH` value: its non-empty pieces between
colons, in order. -/
def path_dirs (path : CStr) : List CStr := pieces [':'] path

/-- The candidate path `dir/command`. -/
def candidate (command dir : CStr) : CStr := dir ++ '/' :: command

/-- A directory name of 254 characters. -/
def long_dir : CStr := List.replicate 254 'a'

/-- A file system in which `access(path, X_OK)` succeeds for `long_dir/` only
(a directory that may be searched) and for no other path. -/
def long_dir_access (path : CStr) : Bool := path == long_dir ++ ['/']

/-- A file system in which `access(path, X_OK)` succeeds for `/bin/ls` and
`/usr/bin/ls` only. -/
def ls_access (path : CStr) : Bool :=
  path == "/bin/ls".toList || path == "/usr/bin/ls".toList

/-- A function of another module leaves `g_shell.last_exit_status` as it is. -/
def keeps_exit_status {E : Type} (f : World E → World E) : Prop :=
  ∀ w, (f w).g_shell.last_exit_status = w.g_shell.last_exit_status

/-- A function of another module leaves `g_shell.running` as it is. -/
def keeps_running {E : Type} (f : World E → World E) : Prop :=
  ∀ w, (f w).g_shell.running = w.g_shell.running

/-- The event is a call of `execute_command`. -/
def Event.is_execute : Event → Bool
  | .execute_command _ _ => true
  | _ => false

/-- The event is a call of `add_to_history`. -/
def Event.is_add_to_history : Event → Bool
  | .add_to_history _ => true
  | _ => false

/-- The event is a store to `g_shell.last_exit_status`. -/
def Event.is_store : Event → Bool
  | .store_last_exit_status _ => true
  | _ => false

/-- The value a call of `execute_command` returned. -/
def Event.returned_status : Event → Option Int
  | .execute_command _ status => some status
  | _ => none

/-- The values the calls of `execute_command` returned, in order. -/
def returned_statuses (events : List Event) : List Int :=
  events.filterMap Event.returned_status

/-! ## A sample environment for the loop -/

/-- A history module that appends each line to `g_shell.history`. -/
def sample_add_to_history (line : CStr) (w : World Unit) : World Unit :=
  { w with g_shell :=
      { w.g_shell with history := w.g_shell.history ++ [line],
                       history_count := w.g_shell.history_count + 1 } }

/-- A lexer that rejects a line with a `;` and otherwise makes one word token of
each piece between blanks and tabs (none for a blank line). -/
def sample_tokenize (line : CStr) (_w : World Unit) : Option (List token_t) :=
  if line.contains ';' then none
  else some ((pieces [' ', '\t'] line).map (fun t => { type := .TOKEN_WORD, value := some t }))

/-- A parser that fails on zero tokens and otherwise builds a single stage. -/
def sample_parse_command (tokens : List token_t) (_w : World Unit) : command_t :=
  match tokens with
  | [] => .NULL
  | t :: ts =>
    .node ((t :: ts).filterMap (fun x => x.value)) ((t :: ts).length) none none 0 0 .NULL

/-- An executor that knows `exit` (clears `g_shell.running`, status 0), `true`
(status 0) and `false` (status 1); any other command is not found (status 127). -/
def sample_execute_command (cmd : command_t) (w : World Unit) : Int × World Unit :=
  match cmd with
  | .node (name :: _) _ _ _ _ _ _ =>
    if name = "exit".toList then (0, { w with g_shell := { w.g_shell with running := 0 } })
    else if name = "true".toList then (0, w)
    else if name = "false".toList then (1, w)
    else (127, w)
  | _ => (1, w)

/-- The sample environment. -/
def sample_collab : Collab Unit where
  getcwd := fun _ => some ['/']
  setup_signals := fun w => w
  init_history := fun w => w
  add_to_history := sample_add_to_history
  tokenize := sample_tokenize
  parse_command := sample_parse_command
  execute_command := sample_execute_command
  cleanup_history := fun w => w

/-- A state of the running shell in the sample environment. -/
def sample_world : World Unit :=
  { g_shell := { zeroed_state with running := 1, current_directory := ['/'] }, os := () }

/-- The value a store to `g_shell.last_exit_status` wrote. -/
def Event.stored_status : Event → Option Int
  | .store_last_exit_status status => some status
  | _ => none

/-- The values stored to `g_shell.last_exit_status`, in order. -/
def stored_statuses (events : List Event) : List Int :=
  events.filterMap Event.stored_status

/-- The state in which `main` enters the loop: `g_shell` zeroed, `running` 1,
`last_exit_status` 0, the working directory from `getcwd` (or `/`), after the
signal and history modules were set up. -/
def startup_world {E : Type} (c : Collab E) (os : E) : World E :=
  c.init_history (c.setup_signals
    { g_shell := { zeroed_state with
        running := 1, last_exit_status := 0,
        current_directory := (c.getcwd os).getD ['/'] },
      os := os })

/-- The exit statuses of the pipelines of a session, in the words of the
specification: the lines are read in order while the shell is running, starting
in state `w`; a line that is not empty is recorded by the history module; if it is
then tokenized and parsed successfully its pipeline is executed, the value
`execute_command` returns is the status of that pipeline and becomes the last
exit status; any other line has no pipeline and no status. -/
def pipeline_statuses {E : Type} (c : Collab E) : List CStr → World E → List Int
  | [], _ => []
  | line :: rest, w =>
    if w.g_shell.running = 0 then []
    else if line = [] then pipeline_statuses c rest w
    else
      match c.tokenize line (c.add_to_history line w) with
      | none => pipeline_statuses c rest (c.add_to_history line w)
      | some tokens =>
        match c.parse_command tokens (c.add_to_history line w) with
        | .NULL => pipeline_statuses c rest (c.add_to_history line w)
        | .node a n i o ap b nx =>
          (c.execute_command (.node a n i o ap b nx) (c.add_to_history line w)).1
            :: pipeline_statuses c rest
                (((c.execute_command (.node a n i o ap b nx)
                    (c.add_to_history line w)).2).set_last_exit_status
                  (c.execute_command (.node a n i o ap b nx) (c.add_to_history line w)).1)

/-- For a lexer `tok`, a parser `parse` and an executor `exec` that answer without
regard to the state: the status of the pipeline of `line` when `line` is not
empty and is tokenized and parsed successfully, and nothing otherwise. -/
def line_status (tok : CStr → Option (List token_t)) (parse : List token_t → command_t)
    (exec : command_t → Int) (line : CStr) : Option Int :=
  if line = [] then none
  else
    match tok line with
    | none => none
    | some tokens =>
      match parse tokens with
      | .NULL => none
      | .node a n i o ap b nx => some (exec (.node a n i o ap b nx))

/-- The status the plain sample executor returns: 0 for `true`, 1 for `false`,
127 for any other command. -/
def plain_status (cmd : command_t) : Int :=
  match cmd with
  | .node (name :: _) _ _ _ _ _ _ =>
    if name = "true".toList then 0
    else if name = "false".toList then 1
    else 127
  | _ => 1

/-- The sample environment with an executor that changes no state. -/
def plain_collab : Collab Unit where
  getcwd := fun _ => some ['/']
  setup_signals := fun w => w
  init_history := fun w => w
  add_to_history := sample_add_to_history
  tokenize := sample_tokenize
  parse_command := sample_parse_command
  execute_command := fun cmd w => (plain_status cmd, w)
  cleanup_history := fun w => w

/-! ## Lemmas on `strtok` and `pieces` -/

theorem pieces_nil (d : CStr) : pieces d [] = [] := by
  simp [pieces]

theorem pieces_cons_delim (d : CStr) (x : Char) (xs : CStr) (h : isDelim d x = true) :
    pieces d (x :: xs) = pieces d xs := by
  simp [pieces, h]

theorem pieces_dropWhile (d : CStr) (s : CStr) :
    pieces d (s.dropWhile (isDelim d)) = pieces d s := by
  induction s with
  | nil => rfl
  | cons x xs ih =>
    by_cases h : isDelim d x = true
    · rw [List.dropWhile_cons_of_pos h, ih, pieces_cons_delim d x xs h]
    · rw [List.dropWhile_cons_of_neg h]

theorem pieces_token (d : CStr) (c : Char) (cs : CStr) (h : isDelim d c = false) :
    pieces d (c :: cs)
      = (c :: cs).takeWhile (fun x => !isDelim d x)
        :: pieces d (((c :: cs).dropWhile (fun x => !isDelim d x)).drop 1) := by
  have hne : (c :: cs).takeWhile (fun x => !isDelim d x) ≠ [] := by
    simp [List.takeWhile_cons, h]
  have hall : ∀ x ∈ (c :: cs).takeWhile (fun x => !isDelim d x), ¬ isDelim d x = true := by
    intro x hx
    have := List.mem_takeWhile_imp hx
    simpa using this
  have hsplit := List.takeWhile_append_dropWhile (fun x => !isDelim d x) (c :: cs)
  cases hd : (c :: cs).dropWhile (fun x => !isDelim d x) with
  | nil =>
    rw [hd, List.append_nil] at hsplit
    rw [hsplit] at hall hne
    have : (c :: cs).splitOnP (isDelim d) = [c :: cs] := List.splitOnP_eq_single _ _ hall
    rw [hsplit]
    simp [pieces, this]
  | cons sep rest =>
    have hsep : isDelim d sep = true := by
      have h0 := List.head_dropWhile_not (fun x => !isDelim d x) (c :: cs) (by rw [hd]; simp)
      simp only [hd, List.head_cons] at h0
      simpa using h0
    rw [hd] at hsplit
    have hfirst := List.splitOnP_first (isDelim d) _ hall sep hsep rest
    rw [hsplit] at hfirst
    generalize (c :: cs).takeWhile (fun x => !isDelim d x) = tok at *
    cases tok with
    | nil => exact absurd rfl hne
    | cons t ts => simp [pieces, hfirst]

theorem length_dropWhile_le_self (p : Char → Bool) (s : CStr) :
    (s.dropWhile p).length ≤ s.length :=
  (List.dropWhile_suffix p).length_le

theorem strtok_of_all_delim (d save : CStr) (h : save.dropWhile (isDelim d) = []) :
    strtok d save = (none, []) := by
  simp [strtok, h]

theorem strtok_of_token (d save : CStr) (c : Char) (cs : CStr)
    (h : save.dropWhile (isDelim d) = c :: cs) :
    strtok d save
      = (some ((c :: cs).takeWhile (fun x => !isDelim d x)),
         ((c :: cs).dropWhile (fun x => !isDelim d x)).drop 1) := by
  simp [strtok, h]

theorem head_not_delim (d save : CStr) (c : Char) (cs : CStr)
    (h : save.dropWhile (isDelim d) = c :: cs) : isDelim d c = false := by
  have h0 := List.head_dropWhile_not (isDelim d) save (by rw [h]; simp)
  simp only [h, List.head_cons] at h0
  simpa using h0

theorem strtok_rest_length (d save : CStr) (c : Char) (cs : CStr)
    (h : save.dropWhile (isDelim d) = c :: cs) :
    (((c :: cs).dropWhile (fun x => !isDelim d x)).drop 1).length < save.length := by
  have h1 := length_dropWhile_le_self (isDelim d) save
  have h2 := length_dropWhile_le_self (fun x => !isDelim d x) (c :: cs)
  rw [h] at h1
  simp only [List.length_drop, List.length_cons] at *
  omega

/-- The loop of `split_string` collects the pieces of the unread text until the
array holds `MAX_TOKENS - 1` elements. -/
theorem split_string_loop_eq (d : CStr) :
    ∀ (fuel : Nat) (save : CStr) (count : Nat) (result : List CStr),
      save.length < fuel →
      split_string_loop d fuel (strtok d save).1 (strtok d save).2 count result
        = result ++ (pieces d save).take (MAX_TOKENS - 1 - count) := by
  intro fuel
  induction fuel with
  | zero => intro save count result h; exact absurd h (Nat.not_lt_zero _)
  | succ fuel ih =>
    intro save count result hlt
    cases hdw : save.dropWhile (isDelim d) with
    | nil =>
      have hp : pieces d save = [] := by
        rw [← pieces_dropWhile, hdw, pieces_nil]
      rw [strtok_of_all_delim d save hdw, hp]
      simp [split_string_loop]
    | cons c cs =>
      have hp : pieces d save
          = (c :: cs).takeWhile (fun x => !isDelim d x)
            :: pieces d (((c :: cs).dropWhile (fun x => !isDelim d x)).drop 1) := by
        rw [← pieces_dropWhile, hdw, pieces_token d c cs (head_not_delim d save c cs hdw)]
      have hlen := strtok_rest_length d save c cs hdw
      rw [strtok_of_token d save c cs hdw, hp]
      simp only [split_string_loop]
      by_cases hc : count < MAX_TOKENS - 1
      · rw [if_pos hc, ih _ _ _ (by omega)]
        have : MAX_TOKENS - 1 - count = (MAX_TOKENS - 1 - (count + 1)) + 1 := by omega
        rw [this, List.take_succ_cons]
        simp
      · rw [if_neg hc]
        have : MAX_TOKENS - 1 - count = 0 := by omega
        rw [this]
        simp

/-- The array `split_string` returns holds the first `MAX_TOKENS - 1` pieces. -/
theorem split_string_eq (s d : CStr) :
    split_string (some s) (some d) = some ((pieces d s).take (MAX_TOKENS - 1)) := by
  simp only [split_string]
  rw [split_string_loop_eq d (s.length + 1) s 0 [] (Nat.lt_succ_self _)]
  simp

theorem pieces_ne_nil_mem (d s : CStr) : ∀ t ∈ pieces d s, t ≠ [] := by
  intro t ht
  simp only [pieces, List.mem_filter] at ht
  intro h
  rw [h] at ht
  simp at ht

theorem splitOnP_no_delim (d : CStr) :
    ∀ (s : CStr), ∀ t ∈ s.splitOnP (isDelim d), ∀ c ∈ t, isDelim d c = false := by
  intro s
  induction s with
  | nil => intro t ht c hc; simp at ht; rw [ht] at hc; simp at hc
  | cons x xs ih =>
    intro t ht c hc
    rw [List.splitOnP_cons] at ht
    by_cases hx : isDelim d x = true
    · rw [if_pos hx] at ht
      rcases List.mem_cons.mp ht with h | h
      · rw [h] at hc; simp at hc
      · exact ih t h c hc
    · rw [if_neg hx] at ht
      cases hsp : xs.splitOnP (isDelim d) with
      | nil => rw [hsp] at ht; simp at ht
      | cons y ys =>
        rw [hsp] at ht ih
        simp only [List.modifyHead_cons, List.mem_cons] at ht
        rcases ht with h | h
        · rw [h] at hc
          rcases List.mem_cons.mp hc with h1 | h1
          · rw [h1]; simpa using hx
          · exact ih y (List.mem_cons_self _ _) c h1
        · exact ih t (List.mem_cons_of_mem _ h) c hc

theorem pieces_no_delim (d s : CStr) : ∀ t ∈ pieces d s, ∀ c ∈ t, isDelim d c = false := by
  intro t ht c hc
  simp only [pieces, List.mem_filter] at ht
  exact splitOnP_no_delim d s t ht.1 c hc

theorem isDelim_iff (d : CStr) (c : Char) : isDelim d c = true ↔ c ∈ d := by
  simp [isDelim]

theorem isDelim_false_iff (d : CStr) (c : Char) : isDelim d c = false ↔ c ∉ d := by
  simp [isDelim]

theorem splitsInto_pieces_aux (d : CStr) :
    ∀ (n : Nat) (s : CStr), s.length < n → SplitsInto d s (pieces d s) := by
  intro n
  induction n with
  | zero => intro s h; exact absurd h (Nat.not_lt_zero _)
  | succ n ih =>
    intro s hlt
    have hg : ∀ c ∈ s.takeWhile (isDelim d), c ∈ d := by
      intro c hc
      exact (isDelim_iff d c).mp (List.mem_takeWhile_imp hc)
    cases hdw : s.dropWhile (isDelim d) with
    | nil =>
      have hp : pieces d s = [] := by rw [← pieces_dropWhile, hdw, pieces_nil]
      rw [hp]
      refine SplitsInto.done s ?_
      intro c hc
      exact (isDelim_iff d c).mp ((List.dropWhile_eq_nil_iff.mp hdw) c hc)
    | cons c cs =>
      have hc0 := head_not_delim d s c cs hdw
      have hp : pieces d s
          = (c :: cs).takeWhile (fun x => !isDelim d x)
            :: pieces d (((c :: cs).dropWhile (fun x => !isDelim d x)).drop 1) := by
        rw [← pieces_dropWhile, hdw, pieces_token d c cs hc0]
      have hs : s = s.takeWhile (isDelim d)
          ++ (c :: cs).takeWhile (fun x => !isDelim d x)
          ++ (c :: cs).dropWhile (fun x => !isDelim d x) := by
        rw [List.append_assoc, List.takeWhile_append_dropWhile, ← hdw,
          List.takeWhile_append_dropWhile]
      have hne : (c :: cs).takeWhile (fun x => !isDelim d x) ≠ [] := by
        simp [List.takeWhile_cons, hc0]
      have ht : ∀ x ∈ (c :: cs).takeWhile (fun x => !isDelim d x), x ∉ d := by
        intro x hx
        have := List.mem_takeWhile_imp hx
        exact (isDelim_false_iff d x).mp (by simpa using this)
      have hlen : ((c :: cs).dropWhile (fun x => !isDelim d x)).length < n := by
        have h1 := length_dropWhile_le_self (isDelim d) s
        have h2 : ((c :: cs).dropWhile (fun x => !isDelim d x)).length ≤ cs.length := by
          rw [List.dropWhile_cons_of_pos (by simp [hc0])]
          exact length_dropWhile_le_self _ cs
        rw [hdw] at h1
        simp only [List.length_cons] at h1
        omega
      have hrec := ih _ hlen
      have hrest : ∀ x, ((c :: cs).dropWhile (fun x => !isDelim d x)).head? = some x → x ∈ d := by
        intro x hx
        cases hr : (c :: cs).dropWhile (fun x => !isDelim d x) with
        | nil => rw [hr] at hx; simp at hx
        | cons y ys =>
          rw [hr] at hx
          simp only [List.head?_cons, Option.some.injEq] at hx
          have h0 := List.head_dropWhile_not (fun x => !isDelim d x) (c :: cs) (by rw [hr]; simp)
          simp only [hr, List.head_cons] at h0
          rw [← hx]
          exact (isDelim_iff d y).mp (by simpa using h0)
      have hpr : pieces d ((c :: cs).dropWhile (fun x => !isDelim d x))
          = pieces d (((c :: cs).dropWhile (fun x => !isDelim d x)).drop 1) := by
        cases hr : (c :: cs).dropWhile (fun x => !isDelim d x) with
        | nil => rfl
        | cons y ys =>
          have hy : y ∈ d := hrest y (by rw [hr]; rfl)
          rw [pieces_cons_delim d y ys ((isDelim_iff d y).mpr hy)]
          rfl
      rw [hpr] at hrec
      rw [hp]
      have key := SplitsInto.token (s.takeWhile (isDelim d))
        ((c :: cs).takeWhile (fun x => !isDelim d x))
        ((c :: cs).dropWhile (fun x => !isDelim d x)) _ hg hne ht hrest hrec
      rw [← hs] at key
      exact key

theorem splitsInto_pieces (d s : CStr) : SplitsInto d s (pieces d s) :=
  splitsInto_pieces_aux d (s.length + 1) s (Nat.lt_succ_self _)

theorem pieces_of_all_delim (d s : CStr) (h : ∀ c ∈ s, c ∈ d) : pieces d s = [] := by
  have : s.dropWhile (isDelim d) = [] :=
    List.dropWhile_eq_nil_iff.mpr (fun c hc => (isDelim_iff d c).mpr (h c hc))
  rw [← pieces_dropWhile, this, pieces_nil]

/-- C9: for every string `str` and delimiter string `delim` such that `str` has
at most `MAX_TOKENS - 1 = 63` pieces, `split_string` returns the array whose
elements are exactly the pieces of `str` in left-to-right order: `str` reads as
delimiter runs alternating with these elements, no element is empty or contains a
delimiter, and a string made of delimiters only gives the empty array. -/
theorem split_string_returns_pieces (str delim : CStr)
    (h : (pieces delim str).length ≤ MAX_TOKENS - 1) :
    split_string (some str) (some delim) = some (pieces delim str)
    ∧ SplitsInto delim str (pieces delim str)
    ∧ (∀ t ∈ pieces delim str, t ≠ [] ∧ ∀ c ∈ t, c ∉ delim)
    ∧ ((∀ c ∈ str, c ∈ delim) → split_string (some str) (some delim) = some []) := by
  have heq : split_string (some str) (some delim) = some (pieces delim str) := by
    rw [split_string_eq, List.take_of_length_le h]
  refine ⟨heq, splitsInto_pieces delim str, ?_, ?_⟩
  · intro t ht
    exact ⟨pieces_ne_nil_mem delim str t ht,
      fun c hc => (isDelim_false_iff delim c).mp (pieces_no_delim delim str t ht c hc)⟩
  · intro hall
    rw [heq, pieces_of_all_delim delim str hall]

/-- An instance of C9: `"  ls  -l /tmp "` split at blanks and tabs. -/
theorem split_string_returns_pieces_witness :
    (pieces [' ', '\t'] "  ls  -l /tmp ".toList).length ≤ MAX_TOKENS - 1
    ∧ split_string (some "  ls  -l /tmp ".toList) (some [' ', '\t'])
        = some (pieces [' ', '\t'] "  ls  -l /tmp ".toList) :=
  ⟨by decide, (split_string_returns_pieces _ _ (by decide)).1⟩

set_option maxRecDepth 100000 in
/-- C7, as stated, fails: a string of 64 words has more pieces than the array
can hold, and `split_string` returns the array of the first 63 words, not `NULL`. -/
theorem split_string_truncates_silently :
    (pieces [' '] (List.replicate 64 ['a', ' ']).flatten).length = 64
    ∧ split_string (some (List.replicate 64 ['a', ' ']).flatten) (some [' '])
        = some (List.replicate 63 ['a'])
    ∧ split_string (some (List.replicate 64 ['a', ' ']).flatten) (some [' ']) ≠ none := by
  decide

/-- C7, amended: when the string has more than `MAX_TOKENS - 1 = 63` pieces,
`split_string` does not fail: it returns the array of exactly the first 63
pieces and drops the others. -/
theorem split_string_keeps_first_pieces (str delim : CStr)
    (h : MAX_TOKENS - 1 < (pieces delim str).length) :
    split_string (some str) (some delim) = some ((pieces delim str).take (MAX_TOKENS - 1))
    ∧ split_string (some str) (some delim) ≠ none
    ∧ ((pieces delim str).take (MAX_TOKENS - 1)).length = MAX_TOKENS - 1 := by
  refine ⟨split_string_eq str delim, ?_, ?_⟩
  · rw [split_string_eq]; simp
  · rw [List.length_take]; omega

set_option maxRecDepth 100000 in
/-- An instance of amended C7: 65 words separated by commas. -/
theorem split_string_keeps_first_pieces_witness :
    MAX_TOKENS - 1 < (pieces [','] (List.replicate 65 ['b', ',']).flatten).length
    ∧ split_string (some (List.replicate 65 ['b', ',']).flatten) (some [','])
        = some ((pieces [','] (List.replicate 65 ['b', ',']).flatten).take (MAX_TOKENS - 1)) :=
  ⟨by decide, (split_string_keeps_first_pieces _ _ (by decide)).1⟩


/-! ## `trim_whitespace` -/

theorem skip_leading_eq (s : CStr) : skip_leading s = s.dropWhile is_space := by
  induction s with
  | nil => rfl
  | cons c cs ih =>
    by_cases h : is_space c = true
    · simp [skip_leading, h, ih]
    · simp [skip_leading, h]

theorem take_trim_trailing (t : CStr) (h0 : ∀ c, t.head? = some c → is_space c = false) :
    ∀ e, e < t.length →
      t.take (trim_trailing t e + 1) = (t.take (e + 1)).rdropWhile is_space := by
  intro e
  induction e with
  | zero =>
    intro hlt
    cases t with
    | nil => simp at hlt
    | cons c cs =>
      have hc : is_space c = false := h0 c rfl
      simp [trim_trailing, List.rdropWhile_singleton, hc]
  | succ e ih =>
    intro hlt
    have hget : t[e + 1]? = some t[e + 1] := List.getElem?_eq_getElem hlt
    have htake : t.take (e + 1 + 1) = t.take (e + 1) ++ [t[e + 1]] := by
      rw [List.take_succ, hget]; rfl
    by_cases hs : is_space t[e + 1] = true
    · have : trim_trailing t (e + 1) = trim_trailing t e := by
        simp [trim_trailing, hget, hs]
      rw [this, ih (by omega), htake, List.rdropWhile_concat_pos _ _ _ hs]
    · have : trim_trailing t (e + 1) = e + 1 := by
        simp [trim_trailing, hget, hs]
      rw [this, htake, List.rdropWhile_concat_neg _ _ _ hs]

/-- The returned string is the input without its longest whitespace prefix and
its longest whitespace suffix. -/
theorem trim_whitespace_eq (s : CStr) :
    trim_whitespace (some s) = some ((s.dropWhile is_space).rdropWhile is_space) := by
  simp only [trim_whitespace]
  cases hsk : skip_leading s with
  | nil =>
    rw [skip_leading_eq] at hsk
    simp [hsk]
  | cons c cs =>
    rw [skip_leading_eq] at hsk
    have hc : is_space c = false := by
      have h0 := List.head_dropWhile_not is_space s (by rw [hsk]; simp)
      simp only [hsk, List.head_cons] at h0
      simpa using h0
    have h0 : ∀ x, (c :: cs).head? = some x → is_space x = false := by
      intro x hx
      simp only [List.head?_cons, Option.some.injEq] at hx
      rw [← hx]; exact hc
    have key := take_trim_trailing (c :: cs) h0 ((c :: cs).length - 1) (by simp)
    simp only [hsk]
    rw [key]
    have : (c :: cs).length - 1 + 1 = (c :: cs).length := by simp
    rw [this, List.take_length]

theorem rdropWhile_append_rtakeWhile_self (p : Char → Bool) (l : CStr) :
    l.rdropWhile p ++ l.rtakeWhile p = l := by
  simp only [List.rdropWhile, List.rtakeWhile]
  rw [← List.reverse_append, List.takeWhile_append_dropWhile, List.reverse_reverse]

/-- C8: for every string `s`, `trim_whitespace` returns `s` without its longest
prefix and its longest suffix of whitespace characters: `s` is `p ++ r ++ q` with
`r` the result and `p`, `q` made of whitespace only, `r` neither starts nor ends
with a whitespace character, and `r` is empty when `s` is empty or all
whitespace. -/
theorem trim_whitespace_spec (s : CStr) :
    ∃ p r q : CStr,
      trim_whitespace (some s) = some r
      ∧ r = (s.dropWhile is_space).rdropWhile is_space
      ∧ s = p ++ r ++ q
      ∧ (∀ c ∈ p, is_space c = true)
      ∧ (∀ c ∈ q, is_space c = true)
      ∧ (∀ c, r.head? = some c → is_space c = false)
      ∧ (∀ c, r.getLast? = some c → is_space c = false)
      ∧ ((s = [] ∨ ∀ c ∈ s, is_space c = true) → r = [])
      ∧ (∀ c, is_space c = true ↔ c = ' ' ∨ c = '\t' ∨ c = '\n' ∨ c = '\r') := by
  refine ⟨s.takeWhile is_space, (s.dropWhile is_space).rdropWhile is_space,
    (s.dropWhile is_space).rtakeWhile is_space, trim_whitespace_eq s, rfl, ?_, ?_, ?_, ?_, ?_, ?_, ?_⟩
  · rw [List.append_assoc, rdropWhile_append_rtakeWhile_self, List.takeWhile_append_dropWhile]
  · intro c hc
    exact List.mem_takeWhile_imp hc
  · intro c hc
    exact List.mem_rtakeWhile_imp hc
  · intro c hc
    cases hd : s.dropWhile is_space with
    | nil => rw [hd] at hc; simp [List.rdropWhile] at hc
    | cons x xs =>
      have hx : is_space x = false := by
        have h0 := List.head_dropWhile_not is_space s (by rw [hd]; simp)
        simp only [hd, List.head_cons] at h0
        simpa using h0
      obtain ⟨t, ht⟩ := List.rdropWhile_prefix is_space (x :: xs)
      rw [hd] at hc
      cases hr : List.rdropWhile is_space (x :: xs) with
      | nil => rw [hr] at hc; simp at hc
      | cons y ys =>
        rw [hr] at hc ht
        simp only [List.head?_cons, Option.some.injEq] at hc
        simp only [List.cons_append, List.cons.injEq] at ht
        rw [← hc, ht.1]; exact hx
  · intro c hc
    have hne : (s.dropWhile is_space).rdropWhile is_space ≠ [] := by
      intro h; rw [h] at hc; simp at hc
    have hlast := List.rdropWhile_last_not is_space (s.dropWhile is_space) hne
    rw [List.getLast?_eq_getLast _ hne] at hc
    simp only [Option.some.injEq] at hc
    rw [← hc]
    simpa using hlast
  · intro hall
    have hall2 : ∀ c ∈ s, is_space c = true := by
      rcases hall with h | h
      · rw [h]; intro c hc; simp at hc
      · exact h
    have : s.dropWhile is_space = [] := List.dropWhile_eq_nil_iff.mpr hall2
    rw [this]; rfl
  · intro c
    simp [is_space, or_assoc]

/-- An instance of C8: a line with blanks and tabs around `ls  -l`. -/
theorem trim_whitespace_sample :
    trim_whitespace (some " \t ls  -l \r\n".toList) = some "ls  -l".toList := by
  decide


/-! ## `count_commands_in_pipeline` -/

theorem count_loop_eq (cmd : command_t) :
    ∀ count : Int, count_loop cmd count = count + (cmd.stages.length : Int) := by
  induction cmd with
  | NULL => intro count; simp [count_loop, command_t.stages]
  | node args argc i o ap b next ih =>
    intro count
    simp only [count_loop, command_t.stages, List.length_cons]
    rw [ih]
    push_cast
    ring

/-- C10: for every finite, acyclic list of stages, `count_commands_in_pipeline`
returns the number of stages; it returns 0 for the `NULL` list and at least 1
for a list with a first stage, so the number of pipes, one less, is not
negative. -/
theorem count_commands_in_pipeline_spec (cmd : command_t) :
    count_commands_in_pipeline cmd = (cmd.stages.length : Int)
    ∧ count_commands_in_pipeline .NULL = 0
    ∧ (∀ args argc i o ap b next,
        1 ≤ count_commands_in_pipeline (.node args argc i o ap b next)
        ∧ 0 ≤ count_commands_in_pipeline (.node args argc i o ap b next) - 1) := by
  refine ⟨?_, rfl, ?_⟩
  · simp [count_commands_in_pipeline, count_loop_eq]
  · intro args argc i o ap b next
    have : count_commands_in_pipeline (.node args argc i o ap b next)
        = ((command_t.node args argc i o ap b next).stages.length : Int) := by
      simp [count_commands_in_pipeline, count_loop_eq]
    rw [this]
    simp only [command_t.stages, List.length_cons]
    push_cast
    omega


/-! ## `get_executable_path` -/

/-- The loop of `get_executable_path` returns the first candidate, cut to
`MAX_PATH_SIZE - 1` characters, that `access` accepts. -/
theorem get_executable_path_loop_eq (access : CStr → Bool) (command : CStr) :
    ∀ (fuel : Nat) (save : CStr), save.length < fuel →
      get_executable_path_loop access command fuel (strtok [':'] save).1 (strtok [':'] save).2
        = ((path_dirs save).map
            (fun d => (candidate command d).take (MAX_PATH_SIZE - 1))).find? access := by
  intro fuel
  induction fuel with
  | zero => intro save h; exact absurd h (Nat.not_lt_zero _)
  | succ fuel ih =>
    intro save hlt
    cases hdw : save.dropWhile (isDelim [':']) with
    | nil =>
      have hp : path_dirs save = [] := by
        rw [path_dirs, ← pieces_dropWhile, hdw, pieces_nil]
      rw [strtok_of_all_delim [':'] save hdw, hp]
      simp [get_executable_path_loop]
    | cons c cs =>
      have hp : path_dirs save
          = (c :: cs).takeWhile (fun x => !isDelim [':'] x)
            :: path_dirs (((c :: cs).dropWhile (fun x => !isDelim [':'] x)).drop 1) := by
        rw [path_dirs, ← pieces_dropWhile, hdw,
          pieces_token [':'] c cs (head_not_delim [':'] save c cs hdw)]
        rfl
      have hlen := strtok_rest_length [':'] save c cs hdw
      rw [strtok_of_token [':'] save c cs hdw, hp]
      simp only [get_executable_path_loop, List.map_cons, List.find?_cons, candidate]
      cases hacc : access
          (List.take (MAX_PATH_SIZE - 1)
            ((c :: cs).takeWhile (fun x => !isDelim [':'] x) ++ '/' :: command)) with
      | true => simp
      | false =>
        simp only [Bool.false_eq_true, if_false]
        rw [ih _ (by omega)]
        rfl

theorem find_map_take_eq (access : CStr → Bool) (command : CStr) (dirs : List CStr)
    (hfit : ∀ d ∈ dirs, (candidate command d).length ≤ MAX_PATH_SIZE - 1) :
    (dirs.map (fun d => (candidate command d).take (MAX_PATH_SIZE - 1))).find? access
      = (dirs.map (candidate command)).find? access := by
  congr 1
  apply List.map_congr_left
  intro d hd
  exact List.take_of_length_le (hfit d hd)

set_option maxRecDepth 100000 in
/-- C1 holds of the documented behaviour and fails on the code: with `PATH` set to
one directory name of 254 characters and the command `x`, the only candidate
`long_dir/x` has 256 characters and is not executable, so the command is found
nowhere and the result should be `NULL`; the function returns the first 255
characters of the candidate, `long_dir/`, which is not a candidate path. -/
theorem get_executable_path_truncates :
    '/' ∉ ['x']
    ∧ path_dirs long_dir = [long_dir]
    ∧ long_dir_access (candidate ['x'] long_dir) = false
    ∧ ((path_dirs long_dir).map (candidate ['x'])).find? long_dir_access = none
    ∧ get_executable_path long_dir_access (some long_dir) (some ['x'])
        = some (long_dir ++ ['/'])
    ∧ long_dir ++ ['/'] ≠ candidate ['x'] long_dir
    ∧ (candidate ['x'] long_dir).length = MAX_PATH_SIZE := by
  decide

/-- The search when nothing is cut: for a command name without `/` and a `PATH`
value whose candidates `dir/command` all fit in `MAX_PATH_SIZE - 1 = 255`
characters, `get_executable_path` returns the candidate of the first listed
non-empty directory whose candidate is executable, and returns `NULL` exactly when
`PATH` is unset or no listed directory has an executable candidate. -/
theorem get_executable_path_search (access : CStr → Bool) (path_env : Option CStr)
    (command : CStr) (hbare : '/' ∉ command)
    (hfit : ∀ path, path_env = some path →
      ∀ d ∈ path_dirs path, (candidate command d).length ≤ MAX_PATH_SIZE - 1) :
    get_executable_path access path_env (some command)
      = (match path_env with
         | none => none
         | some path => ((path_dirs path).map (candidate command)).find? access)
    ∧ (get_executable_path access path_env (some command) = none
        ↔ path_env = none
          ∨ ∃ path, path_env = some path
              ∧ ∀ d ∈ path_dirs path, access (candidate command d) = false) := by
  have hc : command.contains '/' = false := by simpa using hbare
  have heq : get_executable_path access path_env (some command)
      = (match path_env with
         | none => none
         | some path => ((path_dirs path).map (candidate command)).find? access) := by
    cases path_env with
    | none => simp [get_executable_path, hbare]
    | some path =>
      simp only [get_executable_path, hc, Bool.false_eq_true, if_false]
      rw [get_executable_path_loop_eq access command _ path (Nat.lt_succ_self _)]
      exact find_map_take_eq access command _ (hfit path rfl)
  refine ⟨heq, ?_⟩
  rw [heq]
  cases path_env with
  | none => simp
  | some path =>
    simp only [List.find?_eq_none, List.mem_map, forall_exists_index, and_imp,
      forall_apply_eq_imp_iff₂, Bool.not_eq_true, false_or, Option.some.injEq,
      exists_eq_left']
    simp

/-- The search at `ls` with `PATH=/usr/local/bin:/usr/bin:/bin`
resolves to `/usr/bin/ls`. -/
theorem get_executable_path_search_witness :
    '/' ∉ "ls".toList
    ∧ (∀ d ∈ path_dirs "/usr/local/bin:/usr/bin:/bin".toList,
        (candidate "ls".toList d).length ≤ MAX_PATH_SIZE - 1)
    ∧ get_executable_path ls_access (some "/usr/local/bin:/usr/bin:/bin".toList)
        (some "ls".toList)
      = ((path_dirs "/usr/local/bin:/usr/bin:/bin".toList).map
          (candidate "ls".toList)).find? ls_access :=
  ⟨by decide, by decide,
   (get_executable_path_search ls_access (some "/usr/local/bin:/usr/bin:/bin".toList)
      "ls".toList (by decide)
      (by intro path hp; cases hp; decide)).1⟩

/-- C2: a command name that contains `/` is checked directly: the result is a
copy of the name when it is executable and `NULL` otherwise, whatever the value
of `PATH` (unset included), and it depends on the file system only through the
answer for the name itself. -/
theorem get_executable_path_direct (access : CStr → Bool) (path_env : Option CStr)
    (command : CStr) (hslash : '/' ∈ command) :
    get_executable_path access path_env (some command)
      = (if access command then some command else none)
    ∧ (∀ path_env2 : Option CStr,
        get_executable_path access path_env2 (some command)
          = get_executable_path access path_env (some command))
    ∧ (∀ access2 : CStr → Bool, access2 command = access command →
        get_executable_path access2 path_env (some command)
          = get_executable_path access path_env (some command)) := by
  refine ⟨?_, ?_, ?_⟩
  · simp [get_executable_path, hslash]
  · intro p2
    simp [get_executable_path, hslash]
  · intro a2 h2
    simp [get_executable_path, hslash, h2]

/-- An instance of C2: `/bin/ls` with `PATH` unset. -/
theorem get_executable_path_direct_witness :
    '/' ∈ "/bin/ls".toList
    ∧ get_executable_path ls_access none (some "/bin/ls".toList)
      = (if ls_access "/bin/ls".toList then some "/bin/ls".toList else none) :=
  ⟨by decide, (get_executable_path_direct ls_access none "/bin/ls".toList (by decide)).1⟩


/-! ## The loop of `main.c` -/

theorem shell_loop_body_of_empty {E : Type} (c : Collab E) (w : World E) :
    shell_loop_body c [] w = (w, []) := by
  simp [shell_loop_body]

theorem shell_loop_body_of_tokenize_none {E : Type} (c : Collab E) (line : CStr) (w : World E)
    (hne : line ≠ []) (h : c.tokenize line (c.add_to_history line w) = none) :
    shell_loop_body c line w
      = (c.add_to_history line w,
          [.add_to_history line, .tokenize line, .print_error "Failed to tokenize input"]) := by
  have hl : ¬ line.length = 0 := by
    intro h0; exact hne (List.length_eq_zero.mp h0)
  simp only [shell_loop_body, if_neg hl, h]

theorem shell_loop_body_of_parse_null {E : Type} (c : Collab E) (line : CStr) (w : World E)
    (tokens : List token_t) (hne : line ≠ [])
    (h : c.tokenize line (c.add_to_history line w) = some tokens)
    (hp : c.parse_command tokens (c.add_to_history line w) = .NULL) :
    shell_loop_body c line w
      = (c.add_to_history line w,
          [.add_to_history line, .tokenize line, .parse_command tokens,
           .print_error "Failed to parse command"]) := by
  have hl : ¬ line.length = 0 := by
    intro h0; exact hne (List.length_eq_zero.mp h0)
  simp only [shell_loop_body, if_neg hl, h, hp]

theorem shell_loop_body_of_parsed {E : Type} (c : Collab E) (line : CStr) (w : World E)
    (tokens : List token_t) (cmd : command_t) (hne : line ≠ [])
    (h : c.tokenize line (c.add_to_history line w) = some tokens)
    (hp : c.parse_command tokens (c.add_to_history line w) = cmd) (hcmd : cmd ≠ .NULL) :
    shell_loop_body c line w
      = (((c.execute_command cmd (c.add_to_history line w)).2).set_last_exit_status
            (c.execute_command cmd (c.add_to_history line w)).1,
          [.add_to_history line, .tokenize line, .parse_command tokens,
           .execute_command cmd (c.execute_command cmd (c.add_to_history line w)).1,
           .store_last_exit_status (c.execute_command cmd (c.add_to_history line w)).1]) := by
  have hl : ¬ line.length = 0 := by
    intro h0; exact hne (List.length_eq_zero.mp h0)
  cases cmd with
  | NULL => exact absurd rfl hcmd
  | node a n i o ap b nx => simp only [shell_loop_body, if_neg hl, h, hp]

theorem shell_loop_cons_running {E : Type} (c : Collab E) (line : CStr) (rest : List CStr)
    (w : World E) (hrun : w.g_shell.running ≠ 0) :
    shell_loop c (line :: rest) w
      = ((shell_loop c rest (shell_loop_body c line w).1).1,
         (shell_loop_body c line w).2 ++ (shell_loop c rest (shell_loop_body c line w).1).2) := by
  simp only [shell_loop, if_neg hrun]

/-- The four shapes of one pass of the loop. -/
theorem shell_loop_body_cases {E : Type} (c : Collab E) (line : CStr) (w : World E) :
    (line = [] ∧ shell_loop_body c line w = (w, []))
    ∨ (line ≠ [] ∧ c.tokenize line (c.add_to_history line w) = none)
    ∨ (line ≠ [] ∧ ∃ tokens, c.tokenize line (c.add_to_history line w) = some tokens
        ∧ c.parse_command tokens (c.add_to_history line w) = .NULL)
    ∨ (line ≠ [] ∧ ∃ tokens, c.tokenize line (c.add_to_history line w) = some tokens
        ∧ c.parse_command tokens (c.add_to_history line w) ≠ .NULL) := by
  by_cases hl : line = []
  · left; exact ⟨hl, by rw [hl]; exact shell_loop_body_of_empty c w⟩
  · right
    cases ht : c.tokenize line (c.add_to_history line w) with
    | none => left; exact ⟨hl, rfl⟩
    | some tokens =>
      right
      by_cases hp : c.parse_command tokens (c.add_to_history line w) = .NULL
      · left; exact ⟨hl, tokens, rfl, hp⟩
      · right; exact ⟨hl, tokens, rfl, hp⟩

/-- C3: for every line on which `tokenize` or `parse_command` fails, one pass of
the loop does not call `execute_command` and leaves `g_shell.last_exit_status`
and `g_shell.running` unchanged (the history module keeping them), so that a
running shell goes on with the next line. -/
theorem shell_loop_body_parse_failure {E : Type} (c : Collab E) (line : CStr) (w : World E)
    (hrun : keeps_running (c.add_to_history line))
    (hst : keeps_exit_status (c.add_to_history line))
    (hfail : c.tokenize line (c.add_to_history line w) = none
      ∨ ∃ tokens, c.tokenize line (c.add_to_history line w) = some tokens
          ∧ c.parse_command tokens (c.add_to_history line w) = .NULL) :
    (∀ e ∈ (shell_loop_body c line w).2, e.is_execute = false)
    ∧ (shell_loop_body c line w).1.g_shell.last_exit_status = w.g_shell.last_exit_status
    ∧ (shell_loop_body c line w).1.g_shell.running = w.g_shell.running
    ∧ (∀ (next : CStr) (rest : List CStr), w.g_shell.running ≠ 0 →
        (shell_loop c (line :: next :: rest) w).2
          = (shell_loop_body c line w).2
            ++ (shell_loop_body c next (shell_loop_body c line w).1).2
            ++ (shell_loop c rest
                 (shell_loop_body c next (shell_loop_body c line w).1).1).2) := by
  have hbody : (∀ e ∈ (shell_loop_body c line w).2, e.is_execute = false)
      ∧ (shell_loop_body c line w).1.g_shell.last_exit_status = w.g_shell.last_exit_status
      ∧ (shell_loop_body c line w).1.g_shell.running = w.g_shell.running := by
    by_cases hl : line = []
    · subst hl
      rw [shell_loop_body_of_empty]
      simp
    · rcases hfail with h | ⟨tokens, h, hp⟩
      · rw [shell_loop_body_of_tokenize_none c line w hl h]
        refine ⟨?_, hst w, hrun w⟩
        intro e he
        simp only [List.mem_cons, List.mem_singleton, List.not_mem_nil, or_false] at he
        rcases he with rfl | rfl | rfl <;> rfl
      · rw [shell_loop_body_of_parse_null c line w tokens hl h hp]
        refine ⟨?_, hst w, hrun w⟩
        intro e he
        simp only [List.mem_cons, List.mem_singleton, List.not_mem_nil, or_false] at he
        rcases he with rfl | rfl | rfl | rfl <;> rfl
  refine ⟨hbody.1, hbody.2.1, hbody.2.2, ?_⟩
  intro next rest hr
  have hr1 : (shell_loop_body c line w).1.g_shell.running ≠ 0 := by
    rw [hbody.2.2]; exact hr
  rw [shell_loop_cons_running c line (next :: rest) w hr,
    shell_loop_cons_running c next rest _ hr1]
  simp only [List.append_assoc]

/-- An instance of C3: the line `a;b`, which the sample lexer rejects. -/
theorem shell_loop_body_parse_failure_witness :
    sample_collab.tokenize "a;b".toList
        (sample_collab.add_to_history "a;b".toList sample_world) = none
    ∧ (∀ e ∈ (shell_loop_body sample_collab "a;b".toList sample_world).2,
        e.is_execute = false)
    ∧ (shell_loop_body sample_collab "a;b".toList sample_world).1.g_shell.last_exit_status
        = sample_world.g_shell.last_exit_status
    ∧ (shell_loop_body sample_collab "a;b".toList sample_world).1.g_shell.running
        = sample_world.g_shell.running :=
  have h := shell_loop_body_parse_failure sample_collab "a;b".toList sample_world
    (fun _ => rfl) (fun _ => rfl) (Or.inl (by decide))
  ⟨by decide, h.1, h.2.1, h.2.2.1⟩


/-- For a non-empty line the pass starts with the calls of `add_to_history` and
`tokenize`, and `add_to_history` is not called again. -/
theorem shell_loop_body_events_nonempty {E : Type} (c : Collab E) (line : CStr) (w : World E)
    (hne : line ≠ []) :
    ∃ rest, (shell_loop_body c line w).2 = .add_to_history line :: .tokenize line :: rest
      ∧ (∀ e ∈ rest, e.is_add_to_history = false)
      ∧ (∀ tokens, c.tokenize line (c.add_to_history line w) = some tokens →
          Event.parse_command tokens ∈ rest) := by
  rcases shell_loop_body_cases c line w with h | h | h | h
  · exact absurd h.1 hne
  · rw [shell_loop_body_of_tokenize_none c line w hne h.2]
    refine ⟨_, rfl, ?_, ?_⟩
    · intro e he
      simp only [List.mem_singleton] at he
      rw [he]; rfl
    · intro tokens ht
      rw [h.2] at ht
      exact absurd ht (by simp)
  · obtain ⟨_, tokens, ht, hp⟩ := h
    rw [shell_loop_body_of_parse_null c line w tokens hne ht hp]
    refine ⟨_, rfl, ?_, ?_⟩
    · intro e he
      simp only [List.mem_cons, List.mem_singleton, List.not_mem_nil, or_false] at he
      rcases he with rfl | rfl <;> rfl
    · intro tokens2 ht2
      rw [ht] at ht2
      cases ht2
      exact List.mem_cons_self _ _
  · obtain ⟨_, tokens, ht, hp⟩ := h
    rw [shell_loop_body_of_parsed c line w tokens _ hne ht rfl hp]
    refine ⟨_, rfl, ?_, ?_⟩
    · intro e he
      simp only [List.mem_cons, List.mem_singleton, List.not_mem_nil, or_false] at he
      rcases he with rfl | rfl | rfl <;> rfl
    · intro tokens2 ht2
      rw [ht] at ht2
      cases ht2
      exact List.mem_cons_self _ _

/-- C4, as stated, fails: the sample lexer rejects the line `a;b`, and the pass
has handed the line to `add_to_history` all the same. -/
theorem add_to_history_precedes_tokenize :
    sample_collab.tokenize "a;b".toList
        (sample_collab.add_to_history "a;b".toList sample_world) = none
    ∧ (shell_loop_body sample_collab "a;b".toList sample_world).2
        = [.add_to_history "a;b".toList, .tokenize "a;b".toList,
           .print_error "Failed to tokenize input"]
    ∧ (shell_loop_body sample_collab "a;b".toList sample_world).1.g_shell.history
        = ["a;b".toList] := by
  decide

/-- C4, amended: in every pass of the loop a non-empty line is handed to
`add_to_history` exactly once, before `tokenize` is called and whether or not
`tokenize` and `parse_command` then succeed; the empty line is not handed to it. -/
theorem add_to_history_every_nonempty_line {E : Type} (c : Collab E) (line : CStr)
    (w : World E) :
    (line = [] → (shell_loop_body c line w).2 = [])
    ∧ (line ≠ [] →
        ∃ rest, (shell_loop_body c line w).2
            = .add_to_history line :: .tokenize line :: rest
          ∧ ∀ e ∈ rest, e.is_add_to_history = false) := by
  constructor
  · intro h
    rw [h, shell_loop_body_of_empty]
  · intro h
    obtain ⟨rest, h1, h2, _⟩ := shell_loop_body_events_nonempty c line w h
    exact ⟨rest, h1, h2⟩

/-- An instance of amended C4: the line `true` in the sample environment. -/
theorem add_to_history_every_nonempty_line_witness :
    "true".toList ≠ []
    ∧ ∃ rest, (shell_loop_body sample_collab "true".toList sample_world).2
          = .add_to_history "true".toList :: .tokenize "true".toList :: rest
        ∧ ∀ e ∈ rest, e.is_add_to_history = false :=
  ⟨by decide,
   (add_to_history_every_nonempty_line sample_collab "true".toList sample_world).2 (by decide)⟩

/-- C5, as stated, fails: a line of three blanks is empty after trimming, yet the
pass hands it to `add_to_history` and `tokenize`, and, the sample lexer returning
zero tokens, calls `parse_command`; the state has changed. -/
theorem blank_line_reaches_parse_command :
    trim_whitespace (some "   ".toList) = some []
    ∧ (shell_loop_body sample_collab "   ".toList sample_world).2
        = [.add_to_history "   ".toList, .tokenize "   ".toList, .parse_command [],
           .print_error "Failed to parse command"]
    ∧ (shell_loop_body sample_collab "   ".toList sample_world).1 ≠ sample_world := by
  decide

/-- C5, amended: the pass short-circuits for the line of length 0 only: then no
other module is called and the state is unchanged. Every other line, also one
made of whitespace only, is handed to `add_to_history` and `tokenize`, and to
`parse_command` whenever `tokenize` succeeds. -/
theorem shell_loop_body_short_circuit {E : Type} (c : Collab E) (line : CStr) (w : World E) :
    (line = [] → shell_loop_body c line w = (w, []))
    ∧ (line ≠ [] →
        Event.add_to_history line ∈ (shell_loop_body c line w).2
        ∧ Event.tokenize line ∈ (shell_loop_body c line w).2
        ∧ ∀ tokens, c.tokenize line (c.add_to_history line w) = some tokens →
            Event.parse_command tokens ∈ (shell_loop_body c line w).2) := by
  constructor
  · intro h
    rw [h, shell_loop_body_of_empty]
  · intro h
    obtain ⟨rest, h1, _, h3⟩ := shell_loop_body_events_nonempty c line w h
    rw [h1]
    refine ⟨List.mem_cons_self _ _, List.mem_cons_of_mem _ (List.mem_cons_self _ _), ?_⟩
    intro tokens ht
    exact List.mem_cons_of_mem _ (List.mem_cons_of_mem _ (h3 tokens ht))

/-- An instance of amended C5: the empty line in the sample environment. -/
theorem shell_loop_body_short_circuit_witness :
    ([] : CStr) = []
    ∧ shell_loop_body sample_collab [] sample_world = (sample_world, []) :=
  ⟨rfl, (shell_loop_body_short_circuit sample_collab [] sample_world).1 rfl⟩


/-! ## The exit code of `main` -/

theorem getLast_getD_append (a b : List Int) (x : Int) :
    ((a ++ b).getLast?).getD x = (b.getLast?).getD ((a.getLast?).getD x) := by
  rcases List.eq_nil_or_concat b with hb | ⟨b2, y, hb⟩
  · rw [hb]; simp
  · rw [hb, List.concat_eq_append, ← List.append_assoc]
    simp

theorem returned_statuses_append (a b : List Event) :
    returned_statuses (a ++ b) = returned_statuses a ++ returned_statuses b := by
  simp [returned_statuses]

/-- After one pass `g_shell.last_exit_status` holds the value the call of
`execute_command` returned, if there was one, and its former value otherwise. -/
theorem shell_loop_body_status {E : Type} (c : Collab E)
    (hadd : ∀ l, keeps_exit_status (c.add_to_history l)) (line : CStr) (w : World E) :
    (shell_loop_body c line w).1.g_shell.last_exit_status
      = ((returned_statuses (shell_loop_body c line w).2).getLast?).getD
          w.g_shell.last_exit_status := by
  rcases shell_loop_body_cases c line w with h | h | h | h
  · rw [h.2]; rfl
  · rw [shell_loop_body_of_tokenize_none c line w h.1 h.2]
    exact hadd line w
  · obtain ⟨hne, tokens, ht, hp⟩ := h
    rw [shell_loop_body_of_parse_null c line w tokens hne ht hp]
    exact hadd line w
  · obtain ⟨hne, tokens, ht, hp⟩ := h
    rw [shell_loop_body_of_parsed c line w tokens _ hne ht rfl hp]
    rfl

theorem shell_loop_status {E : Type} (c : Collab E)
    (hadd : ∀ l, keeps_exit_status (c.add_to_history l)) :
    ∀ (input : List CStr) (w : World E),
      (shell_loop c input w).1.g_shell.last_exit_status
        = ((returned_statuses (shell_loop c input w).2).getLast?).getD
            w.g_shell.last_exit_status := by
  intro input
  induction input with
  | nil => intro w; rfl
  | cons line rest ih =>
    intro w
    by_cases hr : w.g_shell.running = 0
    · simp [shell_loop, hr, returned_statuses]
    · rw [shell_loop_cons_running c line rest w hr]
      simp only
      rw [ih, returned_statuses_append, getLast_getD_append,
        shell_loop_body_status c hadd line w]

theorem stored_statuses_append (a b : List Event) :
    stored_statuses (a ++ b) = stored_statuses a ++ stored_statuses b := by
  simp [stored_statuses]

/-- In one pass the values stored to `g_shell.last_exit_status` are the values
`execute_command` returned. -/
theorem shell_loop_body_stored {E : Type} (c : Collab E) (line : CStr) (w : World E) :
    stored_statuses (shell_loop_body c line w).2
      = returned_statuses (shell_loop_body c line w).2 := by
  rcases shell_loop_body_cases c line w with h | h | h | h
  · rw [h.2]; rfl
  · rw [shell_loop_body_of_tokenize_none c line w h.1 h.2]; rfl
  · obtain ⟨hne, tokens, ht, hp⟩ := h
    rw [shell_loop_body_of_parse_null c line w tokens hne ht hp]; rfl
  · obtain ⟨hne, tokens, ht, hp⟩ := h
    rw [shell_loop_body_of_parsed c line w tokens _ hne ht rfl hp]; rfl

theorem shell_loop_stored {E : Type} (c : Collab E) :
    ∀ (input : List CStr) (w : World E),
      stored_statuses (shell_loop c input w).2 = returned_statuses (shell_loop c input w).2 := by
  intro input
  induction input with
  | nil => intro w; rfl
  | cons line rest ih =>
    intro w
    by_cases hr : w.g_shell.running = 0
    · simp [shell_loop, hr, returned_statuses, stored_statuses]
    · rw [shell_loop_cons_running c line rest w hr]
      simp only
      rw [stored_statuses_append, returned_statuses_append, ih, shell_loop_body_stored]

/-- The values `execute_command` returns during the loop are the statuses of the
pipelines of the lines read. -/
theorem shell_loop_returned {E : Type} (c : Collab E) :
    ∀ (input : List CStr) (w : World E),
      returned_statuses (shell_loop c input w).2 = pipeline_statuses c input w := by
  intro input
  induction input with
  | nil => intro w; rfl
  | cons line rest ih =>
    intro w
    by_cases hr : w.g_shell.running = 0
    · simp [shell_loop, pipeline_statuses, hr, returned_statuses]
    · rw [shell_loop_cons_running c line rest w hr]
      simp only
      rw [returned_statuses_append, ih]
      rcases shell_loop_body_cases c line w with h | h | h | h
      · rw [h.2]
        simp [pipeline_statuses, hr, h.1, returned_statuses]
      · rw [shell_loop_body_of_tokenize_none c line w h.1 h.2]
        simp [pipeline_statuses, hr, h.1, h.2, returned_statuses, Event.returned_status]
      · obtain ⟨hne, tokens, ht, hp⟩ := h
        rw [shell_loop_body_of_parse_null c line w tokens hne ht hp]
        simp [pipeline_statuses, hr, hne, ht, hp, returned_statuses, Event.returned_status]
      · obtain ⟨hne, tokens, ht, hp⟩ := h
        rw [shell_loop_body_of_parsed c line w tokens _ hne ht rfl hp]
        cases hcmd : c.parse_command tokens (c.add_to_history line w) with
        | NULL => exact absurd hcmd hp
        | node a n i o ap b nx =>
          simp [pipeline_statuses, hr, hne, ht, hcmd, returned_statuses, Event.returned_status]

theorem set_last_exit_status_running {E : Type} (w : World E) (v : Int) :
    (w.set_last_exit_status v).g_shell.running = w.g_shell.running := rfl

/-- With a lexer, a parser and an executor that answer without regard to the
state, and no module clearing `g_shell.running`, the statuses of a session are
those of its lines, one by one. -/
theorem pipeline_statuses_of_stateless {E : Type} (c : Collab E)
    (tok : CStr → Option (List token_t)) (parse : List token_t → command_t)
    (exec : command_t → Int)
    (htok : ∀ l w, c.tokenize l w = tok l)
    (hparse : ∀ t w, c.parse_command t w = parse t)
    (hexec : ∀ cmd w, (c.execute_command cmd w).1 = exec cmd)
    (hrun_add : ∀ l, keeps_running (c.add_to_history l))
    (hrun_exec : ∀ cmd, keeps_running (fun w => (c.execute_command cmd w).2)) :
    ∀ (input : List CStr) (w : World E), w.g_shell.running ≠ 0 →
      pipeline_statuses c input w = input.filterMap (line_status tok parse exec) := by
  intro input
  induction input with
  | nil => intro w _; rfl
  | cons line rest ih =>
    intro w hr
    have hadd : (c.add_to_history line w).g_shell.running ≠ 0 := by
      rw [hrun_add line w]; exact hr
    by_cases hl : line = []
    · simp [pipeline_statuses, hr, hl, line_status, ih w hr]
    · cases ht : tok line with
      | none =>
        simp [pipeline_statuses, hr, hl, htok, ht, line_status, ih _ hadd]
      | some tokens =>
        cases hp : parse tokens with
        | NULL =>
          simp [pipeline_statuses, hr, hl, htok, ht, hparse, hp, line_status, ih _ hadd]
        | node a n i o ap b nx =>
          have hex : (((c.execute_command (.node a n i o ap b nx)
              (c.add_to_history line w)).2).set_last_exit_status
                (c.execute_command (.node a n i o ap b nx)
                  (c.add_to_history line w)).1).g_shell.running ≠ 0 := by
            rw [set_last_exit_status_running]
            have := hrun_exec (.node a n i o ap b nx) (c.add_to_history line w)
            simp only at this
            rw [this]; exact hadd
          rw [hexec] at hex
          simp [pipeline_statuses, hr, hl, htok, ht, hparse, hp, line_status, hexec, ih _ hex]

theorem startup_world_status {E : Type} (c : Collab E)
    (hsig : keeps_exit_status c.setup_signals) (hinit : keeps_exit_status c.init_history)
    (os : E) : (startup_world c os).g_shell.last_exit_status = 0 := by
  simp only [startup_world]
  rw [hinit, hsig]

theorem startup_world_running {E : Type} (c : Collab E)
    (hsig : keeps_running c.setup_signals) (hinit : keeps_running c.init_history)
    (os : E) : (startup_world c os).g_shell.running ≠ 0 := by
  simp only [startup_world]
  rw [hinit, hsig]
  show (1 : Int) ≠ 0
  decide

theorem main_eq_shell_loop {E : Type} (c : Collab E) (os : E) (input : List CStr) :
    main c os input
      = ((c.cleanup_history (shell_loop c input (startup_world c os)).1).g_shell.last_exit_status,
         (shell_loop c input (startup_world c os)).2) := by
  simp only [main, startup_world]
  cases c.getcwd os <;> rfl

/-- C6: for every sequence of input lines, the exit code `main` returns is the
status of the last pipeline of the session, that is the value `execute_command`
returned for the last line that was read, tokenized and parsed successfully, and 0
when there is no such line (the signal and history modules keeping
`g_shell.last_exit_status`). The calls of `execute_command` in the run of `main`
return exactly these statuses, and each is stored to `g_shell.last_exit_status`
exactly once. When lexer, parser and executor answer without regard to the state
and no module clears `g_shell.running`, the exit code is read off the input line
by line. A pass of the loop on a line that is tokenized and parsed calls
`execute_command` once and stores its result once; a pass on any other line does
neither. -/
theorem main_exit_code {E : Type} (c : Collab E)
    (hsig : keeps_exit_status c.setup_signals)
    (hinit : keeps_exit_status c.init_history)
    (hadd : ∀ l, keeps_exit_status (c.add_to_history l))
    (hclean : keeps_exit_status c.cleanup_history)
    (os : E) (input : List CStr) :
    (main c os input).1
      = ((pipeline_statuses c input (startup_world c os)).getLast?).getD 0
    ∧ returned_statuses (main c os input).2 = pipeline_statuses c input (startup_world c os)
    ∧ stored_statuses (main c os input).2 = pipeline_statuses c input (startup_world c os)
    ∧ (pipeline_statuses c input (startup_world c os) = [] → (main c os input).1 = 0)
    ∧ (∀ (tok : CStr → Option (List token_t)) (parse : List token_t → command_t)
        (exec : command_t → Int),
        (∀ l w, c.tokenize l w = tok l) →
        (∀ t w, c.parse_command t w = parse t) →
        (∀ cmd w, (c.execute_command cmd w).1 = exec cmd) →
        keeps_running c.setup_signals →
        keeps_running c.init_history →
        (∀ l, keeps_running (c.add_to_history l)) →
        (∀ cmd, keeps_running (fun w => (c.execute_command cmd w).2)) →
        (main c os input).1
          = (((input.filterMap (line_status tok parse exec)).getLast?).getD 0))
    ∧ (∀ (line : CStr) (w : World E) (tokens : List token_t),
        line ≠ [] →
        c.tokenize line (c.add_to_history line w) = some tokens →
        c.parse_command tokens (c.add_to_history line w) ≠ .NULL →
        (shell_loop_body c line w).2
          = [.add_to_history line, .tokenize line, .parse_command tokens,
             .execute_command (c.parse_command tokens (c.add_to_history line w))
               (c.execute_command (c.parse_command tokens (c.add_to_history line w))
                 (c.add_to_history line w)).1,
             .store_last_exit_status
               (c.execute_command (c.parse_command tokens (c.add_to_history line w))
                 (c.add_to_history line w)).1]
        ∧ (shell_loop_body c line w).1.g_shell.last_exit_status
          = (c.execute_command (c.parse_command tokens (c.add_to_history line w))
              (c.add_to_history line w)).1)
    ∧ (∀ (line : CStr) (w : World E),
        (line = []
          ∨ c.tokenize line (c.add_to_history line w) = none
          ∨ ∃ tokens, c.tokenize line (c.add_to_history line w) = some tokens
              ∧ c.parse_command tokens (c.add_to_history line w) = .NULL) →
        returned_statuses (shell_loop_body c line w).2 = []
        ∧ ∀ e ∈ (shell_loop_body c line w).2, e.is_store = false) := by
  have hret : returned_statuses (main c os input).2
      = pipeline_statuses c input (startup_world c os) := by
    rw [main_eq_shell_loop]
    exact shell_loop_returned c input (startup_world c os)
  have hmain : (main c os input).1
      = ((pipeline_statuses c input (startup_world c os)).getLast?).getD 0 := by
    rw [main_eq_shell_loop]
    simp only
    rw [hclean, shell_loop_status c hadd, shell_loop_returned,
      startup_world_status c hsig hinit]
  refine ⟨hmain, hret, ?_, ?_, ?_, ?_, ?_⟩
  · rw [main_eq_shell_loop]
    simp only
    rw [shell_loop_stored, shell_loop_returned]
  · intro h
    rw [hmain, h]; rfl
  · intro tok parse exec htok hparse hexec hrs hri hra hre
    rw [hmain, pipeline_statuses_of_stateless c tok parse exec htok hparse hexec hra hre
      input (startup_world c os) (startup_world_running c hrs hri os)]
  · intro line w tokens hne ht hp
    rw [shell_loop_body_of_parsed c line w tokens _ hne ht rfl hp]
    exact ⟨rfl, rfl⟩
  · intro line w h
    by_cases hl : line = []
    · rw [hl, shell_loop_body_of_empty]
      exact ⟨rfl, fun e he => absurd he (List.not_mem_nil e)⟩
    · rcases h with h | h | ⟨tokens, ht, hp⟩
      · exact absurd h hl
      · rw [shell_loop_body_of_tokenize_none c line w hl h]
        refine ⟨rfl, ?_⟩
        intro e he
        simp only [List.mem_cons, List.mem_singleton, List.not_mem_nil, or_false] at he
        rcases he with rfl | rfl | rfl <;> rfl
      · rw [shell_loop_body_of_parse_null c line w tokens hl ht hp]
        refine ⟨rfl, ?_⟩
        intro e he
        simp only [List.mem_cons, List.mem_singleton, List.not_mem_nil, or_false] at he
        rcases he with rfl | rfl | rfl | rfl <;> rfl

/-- An instance of C6. In the sample environment the lines `true`, `false`, the
empty line, a blank line and `a;b` give the statuses 0 and 1 and the exit code 1.
In the plain environment the lines `false`, `a;b` and `ls -l` give the exit code
127, read off the input line by line. -/
theorem main_exit_code_witness :
    keeps_exit_status sample_collab.setup_signals
    ∧ keeps_exit_status sample_collab.init_history
    ∧ (∀ l, keeps_exit_status (sample_collab.add_to_history l))
    ∧ keeps_exit_status sample_collab.cleanup_history
    ∧ pipeline_statuses sample_collab
        ["true".toList, "false".toList, [], "   ".toList, "a;b".toList]
        (startup_world sample_collab ()) = [0, 1]
    ∧ (main sample_collab ()
        ["true".toList, "false".toList, [], "   ".toList, "a;b".toList]).1
        = ((pipeline_statuses sample_collab
            ["true".toList, "false".toList, [], "   ".toList, "a;b".toList]
            (startup_world sample_collab ())).getLast?).getD 0
    ∧ (["false".toList, "a;b".toList, "ls -l".toList].filterMap
        (line_status (fun l => sample_tokenize l sample_world)
          (fun t => sample_parse_command t sample_world) plain_status)) = [1, 127]
    ∧ (main plain_collab () ["false".toList, "a;b".toList, "ls -l".toList]).1
        = (((["false".toList, "a;b".toList, "ls -l".toList].filterMap
            (line_status (fun l => sample_tokenize l sample_world)
              (fun t => sample_parse_command t sample_world) plain_status)).getLast?).getD 0) :=
  ⟨fun _ => rfl, fun _ => rfl, fun _ _ => rfl, fun _ => rfl, by decide,
   (main_exit_code sample_collab (fun _ => rfl) (fun _ => rfl) (fun _ _ => rfl) (fun _ => rfl)
      () ["true".toList, "false".toList, [], "   ".toList, "a;b".toList]).1,
   by decide,
   (main_exit_code plain_collab (fun _ => rfl) (fun _ => rfl) (fun _ _ => rfl) (fun _ => rfl)
      () ["false".toList, "a;b".toList, "ls -l".toList]).2.2.2.2.1
      (fun l => sample_tokenize l sample_world)
      (fun t => sample_parse_command t sample_world) plain_status
      (fun _ _ => rfl) (fun _ _ => rfl) (fun _ _ => rfl)
      (fun _ => rfl) (fun _ => rfl) (fun _ _ => rfl) (fun _ _ => rfl)⟩

/-- The sample run of `main` ends with exit code 1, the status of `false`. -/
theorem main_sample_run :
    (main sample_collab () ["false".toList, [], "   ".toList, "a;b".toList]).1 = 1 := by
  decide

/-- After `exit` the loop reads no further line. -/
theorem main_sample_exit :
    (main sample_collab () ["false".toList, "exit".toList, "nosuch".toList]).1 = 0
    ∧ pipeline_statuses sample_collab ["false".toList, "exit".toList, "nosuch".toList]
        (startup_world sample_collab ()) = [1, 0] := by
  decide


end MuShell
